import Mathlib

/-!
Verification of `rawToPoly` from `src/polynomials.cpp` of the polywog package.

The C++ function computes the raw polynomial expansion of a numeric vector
`x` according to an integer matrix `poly_terms` of per-variable exponents.
We embed it shallowly: `Rcpp::NumericVector` becomes `List ℚ` (exact
arithmetic standing in for IEEE doubles; the only operations performed are
multiplications and integer powers, which the claims treat exactly),
`Rcpp::IntegerMatrix` becomes a structure with row count, column count and
row-major entries, and `Rcpp::stop` becomes the `Except.error` branch.
The in-place updates `ans[i+1] *= pow(x[j], powers[j])` are modelled with
`List.set` inside folds over the loop index ranges, exactly mirroring the
two nested `for` loops of the source.
-/

deriving instance DecidableEq for Except

/-- The message passed to `Rcpp::stop` when the shape check fails. -/
def shapeMismatchMsg : String :=
  "'x' must be the same length as the number of columns in 'poly_terms'"

/-- An `Rcpp::IntegerMatrix`: its row count `nrow`, column count `ncol`,
and entries, row by row. -/
structure IntMatrix where
  nrow : ℕ
  ncol : ℕ
  rows : List (List ℤ)
deriving Repr, DecidableEq

/-- A genuine (rectangular) matrix: the stored rows agree with the declared
dimensions, as is guaranteed for every `Rcpp::IntegerMatrix`. -/
def IntMatrix.WF (pt : IntMatrix) : Prop :=
  pt.rows.length = pt.nrow ∧ ∀ r ∈ pt.rows, r.length = pt.ncol

instance (pt : IntMatrix) : Decidable pt.WF := by
  unfold IntMatrix.WF; infer_instance

/-- The body of the inner `for` loop of `rawToPoly`, at column `j`, acting
on the slot `ans[i+1]`:
`if (powers[j] > 0) ans[i+1] *= pow(x[j], powers[j]);`. -/
def innerStep (x : List ℚ) (powers : List ℤ) (i : ℕ) (a : List ℚ) (j : ℕ) :
    List ℚ :=
  if powers[j]! > (0 : ℤ) then
    a.set (i + 1) (a[i + 1]! * x[j]! ^ (powers[j]!).toNat)
  else a

/-- The inner `for (j = 0; j < n_variables; j++)` loop of `rawToPoly`. -/
def innerLoop (x : List ℚ) (n_variables : ℕ) (powers : List ℤ) (i : ℕ)
    (ans : List ℚ) : List ℚ :=
  (List.range n_variables).foldl (innerStep x powers i) ans

/-- The outer `for (i = 0; i < n_poly; i++)` loop of `rawToPoly`:
each iteration reads `powers = poly_terms.row(i)` and runs the inner loop. -/
def outerLoop (x : List ℚ) (pt : IntMatrix) (ans : List ℚ) : List ℚ :=
  (List.range pt.nrow).foldl
    (fun a i => innerLoop x pt.ncol pt.rows[i]! i a)
    ans

/-- `rawToPoly` from `src/polynomials.cpp`: checks the shape, allocates
`ans` of length `n_poly + 1` filled with `1.0`, runs the nested loops and
returns `ans`.  `Rcpp::stop` is modelled as `Except.error`. -/
def rawToPoly (x : List ℚ) (pt : IntMatrix) : Except String (List ℚ) :=
  let n_poly := pt.nrow
  let n_variables := pt.ncol
  if x.length ≠ n_variables then
    Except.error shapeMismatchMsg
  else
    Except.ok (outerLoop x pt (List.replicate (n_poly + 1) (1 : ℚ)))

/-- The `(base, exponent)` arguments passed to `pow` during one pass of the
inner loop, in order: the source only calls `pow` inside the
`powers[j] > 0` guard. -/
def rowPowCalls (x : List ℚ) (n_variables : ℕ) (powers : List ℤ) :
    List (ℚ × ℤ) :=
  (List.range n_variables).foldl
    (fun calls j =>
      if powers[j]! > (0 : ℤ) then calls ++ [(x[j]!, powers[j]!)] else calls)
    []

/-- The complete trace of arguments passed to `pow` during a call of
`rawToPoly x pt` (empty when the call stops at the shape check). -/
def powCalls (x : List ℚ) (pt : IntMatrix) : List (ℚ × ℤ) :=
  if x.length ≠ pt.ncol then []
  else
    (List.range pt.nrow).foldl
      (fun calls i => calls ++ rowPowCalls x pt.ncol pt.rows[i]!)
      []

/-- The caller-visible state of a call: the argument vector and matrix.
Used to express that `rawToPoly` never writes to its inputs. -/
structure CallState where
  x : List ℚ
  poly_terms : IntMatrix
deriving Repr, DecidableEq

/-- One inner-loop iteration with the caller's state threaded through:
reads of `x` go through the state component of the pair and the write goes
to the `ans` component only. -/
def runInnerStep (powers : List ℤ) (i : ℕ) (q : CallState × List ℚ)
    (j : ℕ) : CallState × List ℚ :=
  if powers[j]! > (0 : ℤ) then
    (q.1, q.2.set (i + 1) (q.2[i + 1]! * q.1.x[j]! ^ (powers[j]!).toNat))
  else q

/-- One outer-loop iteration with the caller's state threaded through:
`powers = poly_terms.row(i)` is read from the state component. -/
def runOuterStep (n_variables : ℕ) (p : CallState × List ℚ) (i : ℕ) :
    CallState × List ℚ :=
  (List.range n_variables).foldl (runInnerStep p.1.poly_terms.rows[i]! i) p

/-- `rawToPoly` with the caller's state threaded through every loop
iteration, mirroring the source statement by statement.  Comparing its
final state and result with the inputs and with `rawToPoly` shows the
inputs are never mutated and the output depends on nothing else. -/
def rawToPolyRun (st : CallState) : Except String (CallState × List ℚ) :=
  let n_poly := st.poly_terms.nrow
  let n_variables := st.poly_terms.ncol
  if st.x.length ≠ n_variables then
    Except.error shapeMismatchMsg
  else
    Except.ok
      ((List.range n_poly).foldl (runOuterStep n_variables)
        (st, List.replicate (n_poly + 1) (1 : ℚ)))

/-- The factor contributed by variable `j` to a monomial: a positive
exponent contributes `x[j] ^ powers[j]`, any other entry contributes `1`
(the guard in the source skips it). -/
def rowFactor (x : List ℚ) (powers : List ℤ) (j : ℕ) : ℚ :=
  if powers[j]! > (0 : ℤ) then x[j]! ^ (powers[j]!).toNat else 1

/-- The mathematical value of one monomial: the product of the per-column
factors. -/
def rowValue (x : List ℚ) (n_variables : ℕ) (powers : List ℤ) : ℚ :=
  ((List.range n_variables).map (rowFactor x powers)).prod

theorem list_getElem!_lt {α : Type} [Inhabited α] (l : List α) (k : ℕ)
    (h : k < l.length) : l[k]! = l[k] :=
  getElem!_pos l k h

theorem list_getElem!_ge {α : Type} [Inhabited α] (l : List α) (k : ℕ)
    (h : l.length ≤ k) : l[k]! = default :=
  getElem!_neg l k (by omega)

theorem list_set_getElem!_self : ∀ (l : List ℚ) (k : ℕ), k < l.length →
    l.set k l[k]! = l
  | a :: l, 0, _ => by simp
  | a :: l, k + 1, h => by
    simp only [List.getElem!_cons_succ, List.set_cons_succ]
    rw [list_set_getElem!_self l k (by simpa using h)]

/-- Running the inner-loop body along any list of column indices only
rewrites slot `i + 1`, multiplying it by the corresponding factors. -/
theorem foldl_innerStep (x : List ℚ) (powers : List ℤ) (i : ℕ) :
    ∀ (L : List ℕ) (a : List ℚ), i + 1 < a.length →
      L.foldl (innerStep x powers i) a =
        a.set (i + 1) (a[i + 1]! * (L.map (rowFactor x powers)).prod)
  | [], a, h => by
    simp [list_set_getElem!_self a (i + 1) h]
  | j :: L, a, h => by
    simp only [List.foldl_cons, List.map_cons, List.prod_cons]
    by_cases hj : powers[j]! > (0 : ℤ)
    · have hstep : innerStep x powers i a j =
          a.set (i + 1) (a[i + 1]! * x[j]! ^ (powers[j]!).toNat) := by
        simp [innerStep, hj]
      have hlen2 : i + 1 <
          (a.set (i + 1) (a[i + 1]! * x[j]! ^ (powers[j]!).toNat)).length := by
        simpa using h
      rw [hstep, foldl_innerStep x powers i L _ hlen2]
      have hget : (a.set (i + 1) (a[i + 1]! * x[j]! ^ (powers[j]!).toNat))[i + 1]! =
          a[i + 1]! * x[j]! ^ (powers[j]!).toNat := by
        rw [list_getElem!_lt _ _ hlen2, List.getElem_set_self]
      rw [hget, List.set_set, rowFactor, if_pos hj, mul_assoc]
    · have hstep : innerStep x powers i a j = a := by simp [innerStep, hj]
      rw [hstep, foldl_innerStep x powers i L a h, rowFactor, if_neg hj, one_mul]

/-- The inner loop multiplies `ans[i+1]` by the value of monomial `i` and
leaves every other slot alone. -/
theorem innerLoop_eq (x : List ℚ) (nv : ℕ) (powers : List ℤ) (i : ℕ)
    (ans : List ℚ) (h : i + 1 < ans.length) :
    innerLoop x nv powers i ans =
      ans.set (i + 1) (ans[i + 1]! * rowValue x nv powers) := by
  unfold innerLoop rowValue
  exact foldl_innerStep x powers i (List.range nv) ans h

/-- After the first `n` iterations of the outer loop, slots `1..n` hold the
monomial values and every other slot still holds the initial `1.0`. -/
theorem outer_char (x : List ℚ) (pt : IntMatrix) :
    ∀ n, n ≤ pt.nrow →
      (List.range n).foldl (fun a i => innerLoop x pt.ncol pt.rows[i]! i a)
          (List.replicate (pt.nrow + 1) (1 : ℚ)) =
        (1 : ℚ) ::
          ((List.range n).map (fun i => rowValue x pt.ncol pt.rows[i]!) ++
            List.replicate (pt.nrow - n) (1 : ℚ))
  | 0, _ => by simp [List.replicate_succ]
  | n + 1, h => by
    rw [List.range_succ, List.foldl_append, List.foldl_cons, List.foldl_nil,
      outer_char x pt n (by omega)]
    have hm : ((List.range n).map
        (fun i => rowValue x pt.ncol pt.rows[i]!)).length = n := by simp
    have hrep : pt.nrow - n = (pt.nrow - (n + 1)) + 1 := by omega
    have hlen2 : n + 1 <
        ((1 : ℚ) ::
          ((List.range n).map (fun i => rowValue x pt.ncol pt.rows[i]!) ++
            List.replicate (pt.nrow - n) (1 : ℚ))).length := by
      simp; omega
    rw [innerLoop_eq x pt.ncol pt.rows[n]! n _ hlen2]
    have hget : ((1 : ℚ) ::
        ((List.range n).map (fun i => rowValue x pt.ncol pt.rows[i]!) ++
          List.replicate (pt.nrow - n) (1 : ℚ)))[n + 1]! = 1 := by
      rw [list_getElem!_lt _ _ hlen2, List.getElem_cons_succ,
        List.getElem_append_right (by omega)]
      simp
    rw [hget, one_mul, List.set_cons_succ,
      List.set_append_right _ _ (by omega), hm, Nat.sub_self, hrep,
      List.replicate_succ, List.set_cons_zero]
    simp [List.map_append]

/-- When the shape check passes, `rawToPoly` returns the constant `1.0`
followed by the monomial values of the rows, in order. -/
theorem rawToPoly_ok (x : List ℚ) (pt : IntMatrix) (hlen : x.length = pt.ncol) :
    rawToPoly x pt =
      Except.ok ((1 : ℚ) ::
        (List.range pt.nrow).map (fun i => rowValue x pt.ncol pt.rows[i]!)) := by
  unfold rawToPoly outerLoop
  rw [if_neg (by simp [hlen]), outer_char x pt pt.nrow le_rfl]
  simp

theorem foldl_rowPowCalls_pos (x : List ℚ) (powers : List ℤ) :
    ∀ (L : List ℕ) (init : List (ℚ × ℤ)),
      (∀ c ∈ init, (0 : ℤ) < c.2) →
      ∀ c ∈ L.foldl
          (fun calls j =>
            if powers[j]! > (0 : ℤ) then calls ++ [(x[j]!, powers[j]!)]
            else calls)
          init,
        (0 : ℤ) < c.2
  | [], init, hinit => by simpa using hinit
  | j :: L, init, hinit => by
    simp only [List.foldl_cons]
    apply foldl_rowPowCalls_pos x powers L
    intro c hc
    by_cases hj : powers[j]! > (0 : ℤ)
    · rw [if_pos hj] at hc
      rcases List.mem_append.mp hc with hmem | hmem
      · exact hinit c hmem
      · simp only [List.mem_singleton] at hmem
        rw [hmem]
        exact hj
    · rw [if_neg hj] at hc
      exact hinit c hc

theorem rowPowCalls_pos (x : List ℚ) (nv : ℕ) (powers : List ℤ) :
    ∀ c ∈ rowPowCalls x nv powers, (0 : ℤ) < c.2 :=
  foldl_rowPowCalls_pos x powers (List.range nv) [] (by simp)

theorem foldl_powCalls_pos (x : List ℚ) (pt : IntMatrix) :
    ∀ (L : List ℕ) (init : List (ℚ × ℤ)),
      (∀ c ∈ init, (0 : ℤ) < c.2) →
      ∀ c ∈ L.foldl
          (fun calls i => calls ++ rowPowCalls x pt.ncol pt.rows[i]!) init,
        (0 : ℤ) < c.2
  | [], init, hinit => by simpa using hinit
  | i :: L, init, hinit => by
    simp only [List.foldl_cons]
    apply foldl_powCalls_pos x pt L
    intro c hc
    rcases List.mem_append.mp hc with hmem | hmem
    · exact hinit c hmem
    · exact rowPowCalls_pos x pt.ncol pt.rows[i]! c hmem

/-- Every exponent ever passed to `pow` is strictly positive: the source
only calls `pow` under the `powers[j] > 0` guard. -/
theorem powCalls_pos (x : List ℚ) (pt : IntMatrix) :
    ∀ c ∈ powCalls x pt, (0 : ℤ) < c.2 := by
  unfold powCalls
  split
  · simp
  · exact foldl_powCalls_pos x pt (List.range pt.nrow) [] (by simp)

theorem foldl_runInnerStep (powers : List ℤ) (i : ℕ) (st : CallState) :
    ∀ (L : List ℕ) (a : List ℚ),
      L.foldl (runInnerStep powers i) (st, a) =
        (st, L.foldl (innerStep st.x powers i) a)
  | [], _ => rfl
  | j :: L, a => by
    simp only [List.foldl_cons]
    have hstep : runInnerStep powers i (st, a) j =
        (st, innerStep st.x powers i a j) := by
      unfold runInnerStep innerStep
      split <;> rfl
    rw [hstep, foldl_runInnerStep powers i st L _]

theorem foldl_runOuterStep (nv : ℕ) (st : CallState) :
    ∀ (L : List ℕ) (a : List ℚ),
      L.foldl (runOuterStep nv) (st, a) =
        (st,
          L.foldl (fun a i => innerLoop st.x nv st.poly_terms.rows[i]! i a) a)
  | [], _ => rfl
  | i :: L, a => by
    simp only [List.foldl_cons]
    have hstep : runOuterStep nv (st, a) i =
        (st, innerLoop st.x nv st.poly_terms.rows[i]! i a) := by
      unfold runOuterStep innerLoop
      exact foldl_runInnerStep _ i st _ a
    rw [hstep, foldl_runOuterStep nv st L _]

/-- The state-threaded run returns the unchanged caller state paired with
exactly the value that the pure function computes from the inputs. -/
theorem rawToPolyRun_eq (st : CallState) :
    rawToPolyRun st =
      (rawToPoly st.x st.poly_terms).map (fun ans => (st, ans)) := by
  unfold rawToPolyRun rawToPoly outerLoop
  by_cases hc : st.x.length ≠ st.poly_terms.ncol
  · rw [if_pos hc, if_pos hc]
    rfl
  · rw [if_neg hc, if_neg hc, foldl_runOuterStep]
    rfl

theorem prod_ite_eq_filter (f : ℕ → ℚ) (p : ℕ → Prop) [DecidablePred p] :
    ∀ L : List ℕ,
      (L.map (fun j => if p j then f j else 1)).prod =
        ((L.filter (fun j => decide (p j))).map f).prod
  | [] => rfl
  | j :: L => by
    by_cases hj : p j
    · simp [hj, prod_ite_eq_filter f p L]
    · simp [hj, prod_ite_eq_filter f p L]

/-- The value of a monomial is the product of `x[j] ^ powers[j]` over
exactly the columns whose exponent is strictly positive. -/
theorem rowValue_eq_filter (x : List ℚ) (nv : ℕ) (powers : List ℤ) :
    rowValue x nv powers =
      (((List.range nv).filter (fun j => decide ((0 : ℤ) < powers[j]!))).map
        (fun j => x[j]! ^ (powers[j]!).toNat)).prod := by
  unfold rowValue rowFactor
  exact prod_ite_eq_filter _ _ (List.range nv)

/-- C1: for every input vector `x` and exponent matrix `E` with
non-negative integer entries and `len(x)` equal to the column count of
`E`, the returned vector satisfies `result[i+1] = ∏ j, x[j] ^ E[i][j]`
for every row index `i`. -/
theorem spec_c1 (x : List ℚ) (pt : IntMatrix) (hwf : pt.WF)
    (hlen : x.length = pt.ncol)
    (hnn : ∀ r ∈ pt.rows, ∀ e ∈ r, (0 : ℤ) ≤ e) :
    ∃ ans, rawToPoly x pt = Except.ok ans ∧
      ∀ i < pt.nrow, ans[i + 1]! =
        ((List.range pt.ncol).map
          (fun j => x[j]! ^ ((pt.rows[i]!)[j]!).toNat)).prod := by
  refine ⟨_, rawToPoly_ok x pt hlen, ?_⟩
  intro i hi
  rw [List.getElem!_cons_succ, list_getElem!_lt _ _ (by simpa using hi),
    List.getElem_map, List.getElem_range]
  unfold rowValue
  apply congrArg
  apply List.map_congr_left
  intro j hj
  rw [List.mem_range] at hj
  unfold rowFactor
  by_cases hpos : (pt.rows[i]!)[j]! > (0 : ℤ)
  · rw [if_pos hpos]
  · rw [if_neg hpos]
    have hrow : pt.rows[i]! ∈ pt.rows := by
      have hb : i < pt.rows.length := by rw [hwf.1]; exact hi
      rw [list_getElem!_lt _ _ hb]
      exact List.getElem_mem hb
    have hentry : (pt.rows[i]!)[j]! ∈ pt.rows[i]! := by
      have hb : j < pt.rows[i]!.length := by rw [hwf.2 _ hrow]; exact hj
      rw [list_getElem!_lt _ _ hb]
      exact List.getElem_mem hb
    have hz : (pt.rows[i]!)[j]! = 0 := by
      have := hnn _ hrow _ hentry
      omega
    rw [hz]
    simp

theorem spec_c1_witness :
    ∃ ans, rawToPoly [2, 3] ⟨1, 2, [[1, 2]]⟩ = Except.ok ans ∧
      ∀ i < 1, ans[i + 1]! =
        ((List.range 2).map
          (fun j =>
            ([(2 : ℚ), 3])[j]! ^
              (((([[ (1 : ℤ), 2 ]] : List (List ℤ)))[i]!)[j]!).toNat)).prod :=
  spec_c1 [2, 3] ⟨1, 2, [[1, 2]]⟩ (by decide) (by decide) (by decide)

/-- C2: for every `x` and `m × v` matrix `E` with `len(x) = v`, the
returned vector has exactly `m + 1` elements. -/
theorem spec_c2 (x : List ℚ) (pt : IntMatrix) (hlen : x.length = pt.ncol) :
    ∃ ans, rawToPoly x pt = Except.ok ans ∧ ans.length = pt.nrow + 1 := by
  refine ⟨_, rawToPoly_ok x pt hlen, ?_⟩
  simp

theorem spec_c2_witness :
    ∃ ans, rawToPoly [2, 3] ⟨4, 2, [[1, 0], [0, 1], [1, 1], [2, 0]]⟩ =
        Except.ok ans ∧ ans.length = 4 + 1 :=
  spec_c2 [2, 3] ⟨4, 2, [[1, 0], [0, 1], [1, 1], [2, 0]]⟩ (by decide)

/-- C3: for every `x` and `E` with `len(x)` equal to the column count of
`E`, the first element of the returned vector is `1.0`. -/
theorem spec_c3 (x : List ℚ) (pt : IntMatrix) (hlen : x.length = pt.ncol) :
    ∃ ans, rawToPoly x pt = Except.ok ans ∧ ans[0]! = 1 ∧
      ans.head? = some 1 := by
  refine ⟨_, rawToPoly_ok x pt hlen, ?_, ?_⟩ <;> simp

theorem spec_c3_witness :
    ∃ ans, rawToPoly [7] ⟨2, 1, [[1], [2]]⟩ = Except.ok ans ∧
      ans[0]! = 1 ∧ ans.head? = some 1 :=
  spec_c3 [7] ⟨2, 1, [[1], [2]]⟩ (by decide)

/-- C4: the call fails with the `ShapeMismatch` error exactly when
`len(x)` differs from the column count of `E`; in that case no result is
produced and no processing (no `pow` call) happens. -/
theorem spec_c4 (x : List ℚ) (pt : IntMatrix) :
    (rawToPoly x pt = Except.error shapeMismatchMsg ↔ x.length ≠ pt.ncol) ∧
    (x.length ≠ pt.ncol →
      (∀ ans, rawToPoly x pt ≠ Except.ok ans) ∧ powCalls x pt = []) := by
  by_cases hc : x.length ≠ pt.ncol
  · refine ⟨by simp [rawToPoly, hc], fun _ => ⟨fun ans => ?_, ?_⟩⟩
    · simp [rawToPoly, hc]
    · simp [powCalls, hc]
  · exact ⟨by simp [rawToPoly, hc], fun h => absurd h hc⟩

theorem spec_c4_witness :
    rawToPoly [1, 2] ⟨1, 3, [[0, 0, 0]]⟩ = Except.error shapeMismatchMsg :=
  (spec_c4 [1, 2] ⟨1, 3, [[0, 0, 0]]⟩).1.mpr (by decide)

/-- C5 counterexample: on `x = [2]`, `E = [[-1]]` the source's
`powers[j] > 0` guard rejects the negative exponent, so nothing is passed
to `pow` and the result slot keeps the value `1`, whereas the power
operation at exponent `-1` would have yielded `2⁻¹ ≠ 1`: the negative
exponent is guarded against, not propagated. -/
theorem spec_c5_counterexample :
    rawToPoly [2] ⟨1, 1, [[-1]]⟩ = Except.ok [1, 1] ∧
    powCalls [2] ⟨1, 1, [[-1]]⟩ = [] ∧
    (2 : ℚ) ^ (-1 : ℤ) ≠ 1 := by
  refine ⟨by decide, by decide, by norm_num⟩

/-- C5 (amended): entries of the exponent matrix that are not strictly
positive — negative entries included — are never passed to the power
operation; every exponent in the call trace is strictly positive. -/
theorem spec_c5_amended (x : List ℚ) (pt : IntMatrix) :
    ∀ c ∈ powCalls x pt, (0 : ℤ) < c.2 :=
  powCalls_pos x pt

theorem spec_c5_witness :
    (0 : ℤ) < (((2 : ℚ), (3 : ℤ)) : ℚ × ℤ).2 :=
  spec_c5_amended [2] ⟨1, 1, [[3]]⟩ ((2 : ℚ), (3 : ℤ)) (by decide)

/-- C6: for every `x` of the right length and every integer matrix `E`,
negative entries included, each entry `E[i][j] ≤ 0` is skipped like a zero
entry, so `result[i+1]` is the product of `x[j] ^ E[i][j]` over exactly
the columns `j` with `E[i][j] > 0`. -/
theorem spec_c6 (x : List ℚ) (pt : IntMatrix) (hlen : x.length = pt.ncol) :
    ∃ ans, rawToPoly x pt = Except.ok ans ∧
      ∀ i < pt.nrow, ans[i + 1]! =
        (((List.range pt.ncol).filter
            (fun j => decide ((0 : ℤ) < (pt.rows[i]!)[j]!))).map
          (fun j => x[j]! ^ ((pt.rows[i]!)[j]!).toNat)).prod := by
  refine ⟨_, rawToPoly_ok x pt hlen, ?_⟩
  intro i hi
  rw [List.getElem!_cons_succ, list_getElem!_lt _ _ (by simpa using hi),
    List.getElem_map, List.getElem_range]
  exact rowValue_eq_filter x pt.ncol pt.rows[i]!

theorem spec_c6_witness :
    ∃ ans, rawToPoly [5] ⟨1, 1, [[-2]]⟩ = Except.ok ans ∧
      ∀ i < 1, ans[i + 1]! =
        (((List.range 1).filter
            (fun j => decide ((0 : ℤ) < (([[(-2 : ℤ)]] : List (List ℤ))[i]!)[j]!))).map
          (fun j =>
            ([(5 : ℚ)])[j]! ^
              ((([[(-2 : ℤ)]] : List (List ℤ))[i]!)[j]!).toNat)).prod :=
  spec_c6 [5] ⟨1, 1, [[-2]]⟩ (by decide)

/-- C7: if row `i` of `E` consists entirely of zeros, then
`result[i+1] = 1.0`. -/
theorem spec_c7 (x : List ℚ) (pt : IntMatrix) (hlen : x.length = pt.ncol)
    (i : ℕ) (hi : i < pt.nrow) (hz : ∀ e ∈ pt.rows[i]!, e = (0 : ℤ)) :
    ∃ ans, rawToPoly x pt = Except.ok ans ∧ ans[i + 1]! = 1 := by
  refine ⟨_, rawToPoly_ok x pt hlen, ?_⟩
  rw [List.getElem!_cons_succ, list_getElem!_lt _ _ (by simpa using hi),
    List.getElem_map, List.getElem_range]
  apply List.prod_eq_one
  intro v hv
  rw [List.mem_map] at hv
  obtain ⟨j, _, rfl⟩ := hv
  unfold rowFactor
  have hzero : (pt.rows[i]!)[j]! = 0 := by
    by_cases hb : j < pt.rows[i]!.length
    · rw [list_getElem!_lt _ _ hb]
      exact hz _ (List.getElem_mem hb)
    · rw [list_getElem!_ge _ _ (by omega)]
      rfl
  rw [hzero]
  simp

theorem spec_c7_witness :
    ∃ ans, rawToPoly [9, 4] ⟨2, 2, [[0, 0], [1, 1]]⟩ = Except.ok ans ∧
      ans[0 + 1]! = 1 :=
  spec_c7 [9, 4] ⟨2, 2, [[0, 0], [1, 1]]⟩ (by decide) 0 (by decide) (by decide)

/-- C8: the power operation is never invoked with a zero exponent — zero
entries are skipped by the guard rather than evaluated, so `0^0` never
arises. -/
theorem spec_c8 (x : List ℚ) (pt : IntMatrix) :
    ∀ c ∈ powCalls x pt, c.2 ≠ 0 := by
  intro c hc
  have := powCalls_pos x pt c hc
  omega

theorem spec_c8_witness :
    (((0 : ℚ), (2 : ℤ)) : ℚ × ℤ).2 ≠ 0 :=
  spec_c8 [0] ⟨1, 1, [[2]]⟩ ((0 : ℚ), (2 : ℤ)) (by decide)

/-- C9: the function is pure — running the call with the caller's state
threaded through every statement returns the argument vector and matrix
unchanged, and the produced vector is exactly the pure function of the
inputs (all writes go to the freshly allocated answer vector). -/
theorem spec_c9 (st st' : CallState) (ans : List ℚ)
    (h : rawToPolyRun st = Except.ok (st', ans)) :
    st'.x = st.x ∧ st'.poly_terms = st.poly_terms ∧
      rawToPoly st.x st.poly_terms = Except.ok ans := by
  rw [rawToPolyRun_eq] at h
  cases hr : rawToPoly st.x st.poly_terms with
  | error e =>
    rw [hr] at h
    exact absurd h (by simp [Except.map])
  | ok v =>
    rw [hr] at h
    simp only [Except.map, Except.ok.injEq, Prod.mk.injEq] at h
    obtain ⟨h1, h2⟩ := h
    exact ⟨by rw [← h1], by rw [← h1], by rw [h2]⟩

theorem spec_c9_witness :
    rawToPoly [5] ⟨1, 1, [[0]]⟩ = Except.ok [1, 1] :=
  (spec_c9 ⟨[5], ⟨1, 1, [[0]]⟩⟩ ⟨[5], ⟨1, 1, [[0]]⟩⟩ [1, 1] (by decide)).2.2

/-- C10: on `x = [2, 3]` and `E = [[1,0],[0,1],[1,1],[2,0]]` the function
returns exactly `[1.0, 2.0, 3.0, 6.0, 4.0]`. -/
theorem spec_c10 :
    rawToPoly [2, 3] ⟨4, 2, [[1, 0], [0, 1], [1, 1], [2, 0]]⟩ =
      Except.ok [1, 2, 3, 6, 4] := by
  norm_num [rawToPoly, outerLoop, innerLoop, innerStep, List.range_succ,
    List.replicate_succ, show ((2 : ℤ)).toNat = 2 from rfl]
